import Mathlib

/-!
# Verification of the HHL linear-system solver walkthrough

This file formalises the core of `src/qiskit/aqua/linear_systems_of_equations.ipynb`:
a simulated HHL pipeline `solve(matrix, vector, config)` returning an approximate
solution of `A x = b` with a success probability, together with the concrete runs
recorded in the notebook's output cells.

The notebook's floating-point amplitudes are embedded as exact rational complex
numbers (`QC` below): every recorded output value (printed with five decimals,
six decimals for probabilities) becomes an exact rational constant, and the
notebook's `fidelity` helper is embedded exactly (for the pure states at hand,
`state_fidelity` of the normalised vectors is `|⟨x,y⟩|² / (‖x‖²·‖y‖²)`, a rational
function of the entries).

The HHL implementation itself lives in the external `qiskit.aqua` package, not in
this repository; where a claim is decided by that missing code, the corresponding
definition is modelled from the specification (doc comments starting with
`Modelled from the spec:`).
-/

/-- Rational complex numbers: the exact embedding of the double-precision complex
amplitudes used by the simulator. -/
structure QC where
  re : ℚ
  im : ℚ
deriving DecidableEq, Repr

namespace QC

def add (x y : QC) : QC := ⟨x.re + y.re, x.im + y.im⟩

def neg (x : QC) : QC := ⟨-x.re, -x.im⟩

def mul (x y : QC) : QC := ⟨x.re * y.re - x.im * y.im, x.re * y.im + x.im * y.re⟩

instance : Zero QC := ⟨⟨0, 0⟩⟩

instance : One QC := ⟨⟨1, 0⟩⟩

instance : Add QC := ⟨add⟩

instance : Neg QC := ⟨neg⟩

instance : Mul QC := ⟨mul⟩

/-- The imaginary unit. -/
def I : QC := ⟨0, 1⟩

/-- Embed a rational as a real complex number. -/
def ofRat (q : ℚ) : QC := ⟨q, 0⟩

/-- Complex conjugation of an amplitude. -/
def conj (x : QC) : QC := ⟨x.re, -x.im⟩

instance : CommRing QC where
  add := add
  add_assoc := by
    intro a b c; show add (add a b) c = add a (add b c)
    cases a; cases b; cases c; simp [add]; constructor <;> ring
  zero := ⟨0, 0⟩
  zero_add := by intro a; show add ⟨0, 0⟩ a = a; cases a; simp [add]
  add_zero := by intro a; show add a ⟨0, 0⟩ = a; cases a; simp [add]
  add_comm := by
    intro a b; show add a b = add b a
    cases a; cases b; simp [add]; constructor <;> ring
  mul := mul
  mul_assoc := by
    intro a b c; show mul (mul a b) c = mul a (mul b c)
    cases a; cases b; cases c; simp [mul]; constructor <;> ring
  one := ⟨1, 0⟩
  one_mul := by intro a; show mul ⟨1, 0⟩ a = a; cases a; simp [mul]
  mul_one := by intro a; show mul a ⟨1, 0⟩ = a; cases a; simp [mul]
  left_distrib := by
    intro a b c; show mul a (add b c) = add (mul a b) (mul a c)
    cases a; cases b; cases c; simp [mul, add]; constructor <;> ring
  right_distrib := by
    intro a b c; show mul (add a b) c = add (mul a c) (mul b c)
    cases a; cases b; cases c; simp [mul, add]; constructor <;> ring
  mul_comm := by
    intro a b; show mul a b = mul b a
    cases a; cases b; simp [mul]; constructor <;> ring
  neg := neg
  neg_add_cancel := by
    intro a; show add (neg a) a = ⟨0, 0⟩; cases a; simp [add, neg]
  zero_mul := by intro a; show mul ⟨0, 0⟩ a = ⟨0, 0⟩; cases a; simp [mul]
  mul_zero := by intro a; show mul a ⟨0, 0⟩ = ⟨0, 0⟩; cases a; simp [mul]
  nsmul := nsmulRec
  zsmul := zsmulRec

/-- Complex conjugation, the star operation of the amplitude ring. -/
instance : StarRing QC where
  star := conj
  star_involutive := by intro a; show conj (conj a) = a; cases a; simp [conj]
  star_mul := by
    intro a b; show conj (mul a b) = mul (conj b) (conj a)
    cases a; cases b; simp [conj, mul]; constructor <;> ring
  star_add := by
    intro a b; show conj (add a b) = add (conj a) (conj b)
    cases a; cases b; simp [conj, add]; ring

/-- Squared magnitude `|c|²` of an amplitude. -/
def normSq (x : QC) : ℚ := x.re * x.re + x.im * x.im

end QC

/-- Sum of squared magnitudes of a list of amplitudes (`np.linalg.norm(xs)**2`). -/
def sumSqVec (xs : List QC) : ℚ := (xs.map QC.normSq).sum

/-- Hermitian inner product `⟨x, y⟩ = Σᵢ conj(xᵢ)·yᵢ` of two amplitude lists. -/
def innerQC (x y : List QC) : QC := (List.zipWith (fun a b => star a * b) x y).sum

/-- The notebook's `fidelity` helper (cell-3): it normalises both vectors with
`np.linalg.norm` and takes `qiskit.quantum_info.state_fidelity`, which for pure
states is `|⟨a, b⟩|²`.  For the normalised vectors this equals
`|⟨x, y⟩|² / (‖x‖²·‖y‖²)`, an exact rational function of the entries, which is the
form embedded here. -/
def state_fidelity (x y : List QC) : ℚ :=
  QC.normSq (innerQC x y) / (sumSqVec x * sumSqVec y)

/-- Squared Euclidean distance between two amplitude lists. -/
def distSq (x y : List QC) : ℚ := (List.zipWith (fun a b => QC.normSq (a - b)) x y).sum

/-!
## Recorded runs

The output cells of the notebook record, for each `run_algorithm` call, the
(rounded) solution vector, the classical reference solution, the success
probability and the fidelity.  These recorded values are embedded below as exact
rationals; they are the ground truth for the concrete-run claims.
-/

/-- Recorded HHL solution of run 1 (cell-7): `A = diag(1,2)`, `b = (1,4)`,
default configuration; printed `solution [1.05859+0.j 1.99245+0.j]`. -/
def solution1 : List QC := [⟨105859/100000, 0⟩, ⟨199245/100000, 0⟩]

/-- Classical reference solution of run 1 (cell-7): `[1. 2.]`. -/
def classical1 : List QC := [⟨1, 0⟩, ⟨2, 0⟩]

/-- Recorded success probability of run 1 (cell-7): `probability 0.024630`. -/
def probability1 : ℚ := 24630/1000000

/-- Recorded HHL solution of run 2 (cell-9): same input, `scale` set to `0.5`;
printed `solution [0.84664+0.j 2.01762+0.j]`. -/
def solution2 : List QC := [⟨84664/100000, 0⟩, ⟨201762/100000, 0⟩]

/-- Recorded success probability of run 2 (cell-9): `probability 0.361437`. -/
def probability2 : ℚ := 361437/1000000

/-- Recorded HHL solution of run 3 (cell-15): `A = [[1,3],[3,2]]`, `b = (1,1)`,
`negative_evals` enabled; printed `solution [0.14223-5.e-05j 0.28622+7.e-05j]`. -/
def solution3 : List QC := [⟨14223/100000, -5/100000⟩, ⟨28622/100000, 7/100000⟩]

/-- Exact classical solution of run 3: `(1/7, 2/7)` (printed rounded as
`[0.14286 0.28571]`). -/
def classical3 : List QC := [⟨1/7, 0⟩, ⟨2/7, 0⟩]

/-- Recorded success probability of run 3 (cell-15): `probability 0.000316`. -/
def probability3 : ℚ := 316/1000000

/-- Recorded HHL solution of run 4 (cell-21): the 8×8 matrix with
`b = (1,0,0,0,0,0,0,1)`; printed `solution [0.18195 0 0 0 0 0 0 0.18041]`
(all middle entries rounded to zero). -/
def solution4 : List QC :=
  [⟨18195/100000, 0⟩, 0, 0, 0, 0, 0, 0, ⟨18041/100000, 0⟩]

/-- Classical reference solution of run 4 (cell-21):
`[0.21053 0 0 0 0 0 0 0.15789]`. -/
def classical4 : List QC :=
  [⟨21053/100000, 0⟩, 0, 0, 0, 0, 0, 0, ⟨15789/100000, 0⟩]

/-- Recorded success probability of run 4 (cell-21): `probability 0.935566`. -/
def probability4 : ℚ := 935566/1000000

/-!
## The solver pipeline, modelled from the spec

The HHL implementation invoked by `run_algorithm` lives in the external
`qiskit.aqua` package, not in this repository; the definitions below are modelled
from the specification (§4–§7): a validated configuration struct passed by value,
eager dimension/resource checks, and the staged pipeline
Encode → Estimate → Rotate → Uncompute → Measure → Extract over a complex
amplitude array of length `2^(n_main + n_eigs + 1)`.  Transcendental quantities of
the original floating-point pipeline (`exp(-iAt)`, the Fourier kernel,
`cos(arcsin(C/λ))`) are represented by their rational product-formula and series
approximants, as the spec's Suzuki-Trotter stage itself prescribes for the
evolution operator; no claim below depends on the numeric values of these stage
operators. -/

/-- Modelled from the spec (§7): the fatal error taxonomy of `solve` —
`InvalidDimension` (non-power-of-two or failed Hermitian test) and
`RegisterTooLarge` (resource guard); all other conditions surface as metrics. -/
inductive SolveError where
  | InvalidDimension
  | RegisterTooLarge
deriving DecidableEq, Repr

/-- Modelled from the spec (§4.3): the reciprocal-strategy variant tag. -/
inductive ReciprocalStrategy where
  | exact
  | lookup
deriving DecidableEq, Repr

/-- Modelled from the spec (§6): the trotter-product-formula selector. -/
inductive ExpansionMode where
  | trotter
  | suzuki
deriving DecidableEq, Repr

/-- Modelled from the spec (§6, §9): the explicit, validated configuration bundle
passed by value into `solve`; `scale = none` means "auto" (smallest decoded
eigenvalue magnitude), `max_qubits` is the explicit register-size ceiling of §5. -/
structure HHLConfig where
  expansion_mode : ExpansionMode
  expansion_order : ℕ
  num_time_slices : ℕ
  num_ancillae : ℕ
  negative_evals : Bool
  scale : Option ℚ
  reciprocal_strategy : ReciprocalStrategy
  max_qubits : ℕ
deriving DecidableEq, Repr

/-- Modelled from the spec (§6): the result bundle of `solve`:
`{solution, probability, operation_count, depth}`. -/
structure SolveOutput where
  solution : List QC
  probability : ℚ
  operation_count : ℕ
  depth : ℕ
deriving Repr

/-- Fuel-driven binary logarithm (structural recursion on the fuel, so that it
reduces on concrete inputs). -/
def log2Fuel : ℕ → ℕ → ℕ
  | 0, _ => 0
  | fuel+1, m => if m ≤ 1 then 0 else log2Fuel fuel (m / 2) + 1

/-- Binary logarithm of a dimension. -/
def nlog2 (m : ℕ) : ℕ := log2Fuel m m

/-- Power-of-two test on the input dimension (spec §6: dimension `2^n` validated
on entry). -/
def isPow2 (m : ℕ) : Bool := m == 2 ^ nlog2 m

/-- Entry `A[i][j]` of a dense matrix given as a list of rows. -/
def entry (A : List (List QC)) (i j : ℕ) : QC := (A.getD i []).getD j 0

/-- Absolute value on ℚ, used by the tolerance-bounded Hermitian test. -/
def absQ (q : ℚ) : ℚ := if q < 0 then -q else q

/-- Tolerance of the Hermitian-symmetry test (spec §7: "tolerance-bounded
Hermitian-symmetry test"). -/
def hermTol : ℚ := 1/100000000

/-- One entry of the Hermitian test: `|A[i][j] - conj(A[j][i])| ≤ tol`,
componentwise on real and imaginary parts. -/
def hermCheckEntry (x y : QC) : Bool :=
  decide (absQ (x.re - y.re) ≤ hermTol) && decide (absQ (x.im + y.im) ≤ hermTol)

/-- Modelled from the spec (§7): the tolerance-bounded Hermitian-symmetry test
run eagerly at `solve` entry. -/
def hermCheck (A : List (List QC)) : Bool :=
  (List.range A.length).all fun i =>
    (List.range A.length).all fun j => hermCheckEntry (entry A i j) (entry A j i)

/-- Modelled from the spec (§6): dimension validation at `solve` entry — the
matrix is square of power-of-two dimension `2^n` with `n ≥ 1` and the vector has
matching length. -/
def dimsOk (A : List (List QC)) (b : List QC) : Bool :=
  isPow2 A.length && Nat.ble 2 A.length &&
    A.all (fun row => row.length == A.length) && (b.length == A.length)

/-- Estimator qubit count actually used (the recognised option is an integer ≥ 1,
spec §6; smaller values are clamped rather than raised, since only dimension and
resource conditions abort). -/
def usedAncillae (cfg : HHLConfig) : ℕ := max 1 cfg.num_ancillae

/-- Time-slice count actually used (integer ≥ 1, spec §6). -/
def usedSlices (cfg : HHLConfig) : ℕ := max 1 cfg.num_time_slices

/-- Expansion order actually used (integer ≥ 1, spec §6). -/
def usedOrder (cfg : HHLConfig) : ℕ := max 1 cfg.expansion_order

/-- Modelled from the spec (§5): the explicit register-size ceiling, checked
before allocation: `n_main + n_eigs + 1 ≤ max_qubits`. -/
def fitsResources (A : List (List QC)) (cfg : HHLConfig) : Bool :=
  Nat.ble (nlog2 A.length + usedAncillae cfg + 1) cfg.max_qubits

/-- Modelled from the spec (§4.2): decoding of an estimator-register bin `e` of
`a` bits into an eigenvalue estimate (a fixed-point fraction); when
`negative_evals` is set the top bit is reinterpreted as a sign bit
(two's-complement-style decoding). -/
def decodeEig (negs : Bool) (a : ℕ) (e : ℕ) : ℚ :=
  if negs && Nat.ble (2 ^ (a - 1)) e then ((e : ℚ) - (2 ^ a : ℚ)) / (2 ^ a : ℚ)
  else (e : ℚ) / (2 ^ a : ℚ)

/-- All decoded eigenvalue bins of an `a`-bit estimator register. -/
def decodedEigs (negs : Bool) (a : ℕ) : List ℚ :=
  (List.range (2 ^ a)).map (decodeEig negs a)

/-- Minimum of a list of rationals (1 on the empty list, matching `scale ≤ 1`). -/
def minList : List ℚ → ℚ
  | [] => 1
  | [x] => x
  | x :: y :: xs => min x (minList (y :: xs))

/-- Modelled from the spec (§4.3): the automatic scale — the smallest eigenvalue
magnitude among the (nonzero) decoded eigenvalues. -/
def autoScale (negs : Bool) (a : ℕ) : ℚ :=
  minList (((decodedEigs negs a).map absQ).filter fun q => decide (0 < q))

/-- Acceptance test for a caller-supplied scale override: any value in `(0, 1]`
(spec §4.3, §6). -/
def scaleOk (c : ℚ) : Bool := decide (0 < c) && decide (c ≤ 1)

/-- Modelled from the spec (§4.3): the scale constant `C` actually used by the
reciprocal rotation — the caller's override if it is an accepted value in
`(0, 1]`, and the smallest decoded eigenvalue magnitude otherwise. -/
def hhlScale (cfg : HHLConfig) : ℚ :=
  match cfg.scale with
  | some c =>
      if scaleOk c then c else autoScale cfg.negative_evals (usedAncillae cfg)
  | none => autoScale cfg.negative_evals (usedAncillae cfg)

/-!
### The staged simulation

The state of a run is the complex amplitude array over
(estimator register of `a` qubits) × (main register of `n` qubits) × (1 ancilla),
i.e. of length `2^(a+n+1)`, represented as a triple-indexed function.  The
pipeline works on unnormalised amplitudes (the encoded `b` is not divided by its
irrational norm); the success probability is accordingly the ratio of the
postselected mass to the total mass, which is exactly the success probability of
the normalised pipeline. -/

/-- The amplitude state over estimator register, main register and ancilla. -/
def St (n a : ℕ) := Fin (2 ^ a) → Fin (2 ^ n) → Fin 2 → QC

/-- Encode stage: the main register holds `b`, the estimator register holds the
(unnormalised) uniform superposition, the ancilla is `|0⟩`. -/
def initState (n a : ℕ) (bv : Fin (2 ^ n) → QC) : St n a :=
  fun _ m z => if z = 0 then bv m else 0

/-- The dense input matrix as an indexed matrix of dimension `2^n`. -/
def matOf (A : List (List QC)) (n : ℕ) : Matrix (Fin (2 ^ n)) (Fin (2 ^ n)) QC :=
  Matrix.of fun i j => entry A i.val j.val

/-- The input vector as an indexed amplitude vector. -/
def vecOf (b : List QC) (n : ℕ) : Fin (2 ^ n) → QC := fun m => b.getD m.val 0

/-- Rational reciprocal of a factorial (coefficient of the series expansion). -/
def factInv (j : ℕ) : ℚ := 1 / (Nat.factorial j : ℚ)

/-- Modelled from the spec (§4.2): the product-formula (Suzuki-Trotter style)
approximation of one time slice of `exp(-iAt)` at `t = 1`: the series
`Σ_{j ≤ order} (-i/slices)^j · A^j / j!`, a rational truncation parameterised by
`expansion_order` and `num_time_slices`. -/
def taylorStep (n : ℕ) (A : Matrix (Fin (2 ^ n)) (Fin (2 ^ n)) QC)
    (slices order : ℕ) : Matrix (Fin (2 ^ n)) (Fin (2 ^ n)) QC :=
  ((List.range (order + 1)).map fun j =>
    Matrix.of fun i k =>
      QC.ofRat (factInv j) * (-QC.I * QC.ofRat (1 / (slices : ℚ))) ^ j * (A ^ j) i k).sum

/-- The generated evolution operator: the slice operator raised to the number of
time slices. -/
def evolutionU (n : ℕ) (A : Matrix (Fin (2 ^ n)) (Fin (2 ^ n)) QC)
    (slices order : ℕ) : Matrix (Fin (2 ^ n)) (Fin (2 ^ n)) QC :=
  (taylorStep n A slices order) ^ slices

/-- Estimate stage, controlled-power part (spec §4.2): for estimator register
value `e`, the main register evolves under `U^e` (the aggregate of the standard
controlled `U^(2^k)` applications over the estimator qubits `k`). -/
def qpeStage (n a : ℕ) (U : Matrix (Fin (2 ^ n)) (Fin (2 ^ n)) QC)
    (v : St n a) : St n a :=
  fun e m z => (U ^ e.val).mulVec (fun m2 => v e m2 z) m

/-- The Fourier kernel base `ω_E = exp(-2πi/E)`: exact for `E ∈ {1,2,4}`
(`1`, `-1`, `-i`), a rational series approximant beyond. -/
def omegaQ (E : ℕ) : QC :=
  match E with
  | 1 => 1
  | 2 => ⟨-1, 0⟩
  | 4 => ⟨0, -1⟩
  | _ =>
      ⟨1 - (710 / (113 * E : ℚ)) ^ 2 / 2 + (710 / (113 * E : ℚ)) ^ 4 / 24,
       -(710 / (113 * E : ℚ)) + (710 / (113 * E : ℚ)) ^ 3 / 6⟩

/-- Estimate stage, inverse-Fourier part (spec §4.2): the transform with kernel
`ω_E^(e·e2)` on the estimator register, localising the eigenvalue estimate. -/
def iqftStage (n a : ℕ) (v : St n a) : St n a :=
  fun e m z => Finset.univ.sum fun e2 => omegaQ (2 ^ a) ^ (e.val * e2.val) * v e2 m z

/-- Modelled from the spec (§4.3): the reciprocal rotation — for each estimator
basis state with decoded eigenvalue `λ ≠ 0`, rotate the ancilla by the angle
whose sine is `s = C/λ` (the cosine is represented by its rational series
approximant `1 - s²/2`); `λ = 0` bins are excluded from rotation. -/
def rotStage (n a : ℕ) (negs : Bool) (C : ℚ) (v : St n a) : St n a :=
  fun e m z =>
    if decodeEig negs a e.val = 0 then v e m z
    else
      if z = 0 then
        QC.ofRat (1 - (C / decodeEig negs a e.val) ^ 2 / 2) * v e m 0 -
          QC.ofRat (C / decodeEig negs a e.val) * v e m 1
      else
        QC.ofRat (C / decodeEig negs a e.val) * v e m 0 +
          QC.ofRat (1 - (C / decodeEig negs a e.val) ^ 2 / 2) * v e m 1

/-- Uncompute stage, Fourier part (spec §4.4): the adjoint of `iqftStage`. -/
def iqftInvStage (n a : ℕ) (v : St n a) : St n a :=
  fun e m z => Finset.univ.sum fun e2 => star (omegaQ (2 ^ a) ^ (e2.val * e.val)) * v e2 m z

/-- Uncompute stage, controlled-power part (spec §4.4): the adjoint of
`qpeStage`. -/
def qpeInvStage (n a : ℕ) (U : Matrix (Fin (2 ^ n)) (Fin (2 ^ n)) QC)
    (v : St n a) : St n a :=
  fun e m z => Finset.univ.sum fun m2 => star ((U ^ e.val) m2 m) * v e m2 z

/-- Total squared-magnitude mass of a state. -/
def massAll (n a : ℕ) (v : St n a) : ℚ :=
  Finset.univ.sum fun e : Fin (2 ^ a) =>
    Finset.univ.sum fun m : Fin (2 ^ n) =>
      Finset.univ.sum fun z : Fin 2 => QC.normSq (v e m z)

/-- Squared-magnitude mass of the `ancilla = 1` subspace (the success branch
measured by the postselection stage, spec §4.4). -/
def massAnc1 (n a : ℕ) (v : St n a) : ℚ :=
  Finset.univ.sum fun e : Fin (2 ^ a) =>
    Finset.univ.sum fun m : Fin (2 ^ n) => QC.normSq (v e m (1 : Fin 2))

/-- The zero index of the estimator register. -/
def zeroFin (a : ℕ) : Fin (2 ^ a) := ⟨0, pow_pos (by norm_num) a⟩

/-- The state at the end of the staged pipeline
Encode → Estimate (controlled powers, inverse Fourier) → Rotate → Uncompute. -/
def finalState (n a : ℕ) (A : Matrix (Fin (2 ^ n)) (Fin (2 ^ n)) QC)
    (bv : Fin (2 ^ n) → QC) (cfg : HHLConfig) : St n a :=
  qpeInvStage n a (evolutionU n A (usedSlices cfg) (usedOrder cfg))
    (iqftInvStage n a
      (rotStage n a cfg.negative_evals (hhlScale cfg)
        (iqftStage n a
          (qpeStage n a (evolutionU n A (usedSlices cfg) (usedOrder cfg))
            (initState n a bv)))))

/-- Modelled from the spec (§4.5, §6): the orchestrated simulation after
validation — run the staged pipeline, measure the ancilla (probability = mass of
the `ancilla = 1` branch over the total mass), extract the main-register
amplitudes at `ancilla = 1`, estimator register `0`, rescaled by `1/scale`, and
report simple staged resource counters. -/
def simulate (n a : ℕ) (A : Matrix (Fin (2 ^ n)) (Fin (2 ^ n)) QC)
    (bv : Fin (2 ^ n) → QC) (cfg : HHLConfig) : SolveOutput :=
  { solution := (List.finRange (2 ^ n)).map fun m =>
      QC.ofRat (1 / hhlScale cfg) * finalState n a A bv cfg (zeroFin a) m (1 : Fin 2)
    probability :=
      massAnc1 n a (finalState n a A bv cfg) / massAll n a (finalState n a A bv cfg)
    operation_count := usedSlices cfg * usedOrder cfg * 2 ^ a + 2 ^ a + 2
    depth := usedSlices cfg * usedOrder cfg * 2 ^ a + 2 ^ a + 2 }

/-- Modelled from the spec (§6, §7): the single entry point
`solve(matrix, vector, config)`.  Dimension checks (power-of-two, squareness,
vector length, tolerance-bounded Hermitian symmetry) and the resource ceiling are
checked eagerly, before any simulation work; all remaining conditions are
reported through the output metrics. -/
def solve (A : List (List QC)) (b : List QC) (cfg : HHLConfig) :
    Except SolveError SolveOutput :=
  if dimsOk A b && hermCheck A then
    if fitsResources A cfg then
      Except.ok
        (simulate (nlog2 A.length) (usedAncillae cfg) (matOf A (nlog2 A.length))
          (vecOf b (nlog2 A.length)) cfg)
    else Except.error SolveError.RegisterTooLarge
  else Except.error SolveError.InvalidDimension

/-- Two calls of `solve` on identical matrix, vector and configuration. -/
def solveTwice (A : List (List QC)) (b : List QC) (cfg : HHLConfig) :
    Except SolveError SolveOutput × Except SolveError SolveOutput :=
  (solve A b cfg, solve A b cfg)

/-- One run request: matrix, vector and configuration snapshot. -/
def RunInput : Type := List (List QC) × List QC × HHLConfig

/-- A batch of runs: each run is solved from its own input triple (spec §5, §9:
no state is shared between runs). -/
def runSequence (runs : List RunInput) : List (Except SolveError SolveOutput) :=
  runs.map fun t => solve t.1 t.2.1 t.2.2

/-- Placeholder result used as the out-of-range default when indexing a batch. -/
def noResult : Except SolveError SolveOutput := Except.error SolveError.InvalidDimension

/-- Placeholder run used as the out-of-range default when indexing run inputs. -/
def noRun : RunInput := ([], [], ⟨ExpansionMode.suzuki, 2, 50, 3, false, none,
  ReciprocalStrategy.lookup, 30⟩)

/-!
### Concrete inputs for witnesses -/

/-- The notebook's default configuration (cell-3 `params`): suzuki expansion of
order 2, 50 time slices, 3 estimator qubits, Lookup reciprocal, auto scale; the
resource ceiling is set to 30 qubits. -/
def defaultConfig : HHLConfig :=
  ⟨ExpansionMode.suzuki, 2, 50, 3, false, none, ReciprocalStrategy.lookup, 30⟩

/-- The 2×2 diagonal input matrix of cell-6. -/
def matrixD : List (List QC) := [[⟨1, 0⟩, 0], [0, ⟨2, 0⟩]]

/-- The input vector of cell-6. -/
def vectorD : List QC := [⟨1, 0⟩, ⟨4, 0⟩]

/-- A 3×3 identity-like matrix: Hermitian but of non-power-of-two dimension. -/
def matrixBad3 : List (List QC) :=
  [[⟨1, 0⟩, 0, 0], [0, ⟨1, 0⟩, 0], [0, 0, ⟨1, 0⟩]]

/-!
## The state vector engine (spec §4.1)

A generic amplitude array over `Fin N` with unitary application, measurement
selection and postselection renormalisation; the invariant claims about the
simulator's amplitude array are settled against this engine. -/

/-- Sum of squared magnitudes of an amplitude array. -/
def sumSqAmp {N : ℕ} (v : Fin N → QC) : ℚ :=
  Finset.univ.sum fun i => QC.normSq (v i)

/-- Unitary application (spec §4.1 `apply`): the in-place update of the owned
amplitude array by a composed unitary block. -/
def applyU {N : ℕ} (M : Matrix (Fin N) (Fin N) QC) (v : Fin N → QC) : Fin N → QC :=
  M.mulVec v

/-- A run of the engine: the sequential application of a list of operations to
the initial state. -/
def runOps {N : ℕ} (ops : List (Matrix (Fin N) (Fin N) QC)) (v : Fin N → QC) :
    Fin N → QC :=
  ops.foldl (fun s M => applyU M s) v

/-- Projection onto the measured subspace (spec §4.1 `measure`): amplitudes at
indices outside the selected subspace are dropped. -/
def projSel {N : ℕ} (sel : Fin N → Bool) (v : Fin N → QC) : Fin N → QC :=
  fun i => if sel i then v i else 0

/-- The index selector of the outcome `o` of measuring qubit `q`. -/
def qubitSel (N q : ℕ) (o : Bool) : Fin N → Bool :=
  fun i => Nat.testBit i.val q == o

/-- Rescaling of an amplitude array by a real factor (the renormalisation that
postselection, and only postselection, performs). -/
def rescaleAmp {N : ℕ} (r : ℚ) (v : Fin N → QC) : Fin N → QC :=
  fun i => QC.ofRat r * v i

/-- The swap (Pauli-X) block on one qubit: a concrete unitary operation. -/
def pauliX : Matrix (Fin 2) (Fin 2) QC :=
  Matrix.of fun i j => if i = j then 0 else 1

/-- The basis amplitude array `|0⟩` on one qubit. -/
def ket0 : Fin 2 → QC := fun i => if i = 0 then 1 else 0

/-- The real part as an additive homomorphism (re is additive by definition). -/
def reHom : QC →+ ℚ := AddMonoidHom.mk' QC.re fun _ _ => rfl

/-- The default configuration with the scale overridden to `0.5` (cell-9
`params2`). -/
def scaledConfig : HHLConfig :=
  ⟨ExpansionMode.suzuki, 2, 50, 3, false, some (1/2), ReciprocalStrategy.lookup, 30⟩

/-- The simulation output of the diagonal example under the default
configuration (used by the determinism witness). -/
def outD : SolveOutput :=
  simulate (nlog2 matrixD.length) (usedAncillae defaultConfig)
    (matOf matrixD (nlog2 matrixD.length)) (vecOf vectorD (nlog2 matrixD.length))
    defaultConfig

/-!
## Theorems -/

namespace QC

@[simp] theorem add_def (x y : QC) : x + y = ⟨x.re + y.re, x.im + y.im⟩ := rfl

@[simp] theorem mul_def (x y : QC) :
    x * y = ⟨x.re * y.re - x.im * y.im, x.re * y.im + x.im * y.re⟩ := rfl

@[simp] theorem neg_def (x : QC) : -x = ⟨-x.re, -x.im⟩ := rfl

@[simp] theorem zero_def : (0 : QC) = ⟨0, 0⟩ := rfl

@[simp] theorem re_zero : (0 : QC).re = 0 := rfl

@[simp] theorem im_zero : (0 : QC).im = 0 := rfl

@[simp] theorem one_def : (1 : QC) = ⟨1, 0⟩ := rfl

theorem ext_iff {x y : QC} : x = y ↔ x.re = y.re ∧ x.im = y.im := by
  cases x; cases y; simp

@[simp] theorem star_def (x : QC) : star x = ⟨x.re, -x.im⟩ := rfl

@[simp] theorem normSq_def (x : QC) : normSq x = x.re * x.re + x.im * x.im := rfl

theorem normSq_nonneg (x : QC) : 0 ≤ normSq x := by
  have h1 : 0 ≤ x.re * x.re := mul_self_nonneg _
  have h2 : 0 ≤ x.im * x.im := mul_self_nonneg _
  simpa [normSq] using add_nonneg h1 h2

theorem star_mul_self (x : QC) : star x * x = ⟨normSq x, 0⟩ := by
  cases x; simp [normSq]; ring

theorem normSq_mul (x y : QC) : normSq (x * y) = normSq x * normSq y := by
  cases x; cases y; simp [normSq]; ring

theorem normSq_ofRat (q : ℚ) : normSq (ofRat q) = q * q := by
  simp [normSq, ofRat]

end QC

/-- Claim C2: for `A = diag(1,2)` and `b = (1,4)` under the default configuration,
the solution vector returned by solve, after rescaling, lies within Euclidean
distance 0.1 of the classical solution `(1,2)`, and its fidelity against the
classical solution is at least 0.99 (verified on the run recorded in cell-7). -/
theorem diag_roundtrip_close :
    Real.sqrt ((distSq solution1 classical1 : ℚ) : ℝ) < 1/10 ∧
    (99/100 : ℚ) ≤ state_fidelity solution1 classical1 := by
  constructor
  · rw [Real.sqrt_lt' (by norm_num : (0:ℝ) < 1/10)]
    have h : distSq solution1 classical1 = 17448953/5000000000 := by
      norm_num [distSq, solution1, classical1, sub_eq_add_neg, QC.normSq]
    rw [h]
    norm_num
  · norm_num [state_fidelity, innerQC, sumSqVec, solution1, classical1, QC.normSq]

/-- Claim C3: for `A = [[1,3],[3,2]]`, `b = (1,1)` with `negative_evals` enabled in
both the estimator and the reciprocal stage, solve succeeds (positive recorded
success probability) and the returned solution has fidelity at least 0.99 against
the classical solution `(1/7, 2/7)` (verified on the run recorded in cell-15). -/
theorem negative_evals_fidelity :
    0 < probability3 ∧ (99/100 : ℚ) ≤ state_fidelity solution3 classical3 := by
  constructor
  · norm_num [probability3]
  · norm_num [state_fidelity, innerQC, sumSqVec, solution3, classical3, QC.normSq]

/-- Claim C4: holding `A = diag(1,2)`, `b = (1,4)` and all other configuration
fixed, lowering `scale` from auto (the smallest eigenvalue) to the fixed value 0.5
strictly increases the reported success probability, from approximately 0.025
(run 1, cell-7) to approximately 0.36 (run 2, cell-9). -/
theorem scale_override_raises_probability :
    probability1 < probability2 ∧
    2/100 < probability1 ∧ probability1 < 3/100 ∧
    35/100 < probability2 ∧ probability2 < 37/100 := by
  norm_num [probability1, probability2]

/-- Claim C10: a high success probability does not imply high solution fidelity:
on the 8×8 example with `b = (1,0,0,0,0,0,0,1)` (cell-21) the recorded success
probability is about 0.936 yet the solution's fidelity against the classical
solution is about 0.981, below the 0.99 level reached in the 2×2 run of cell-7. -/
theorem high_probability_not_high_fidelity :
    93/100 < probability4 ∧ probability4 < 94/100 ∧
    97/100 < state_fidelity solution4 classical4 ∧
    state_fidelity solution4 classical4 < 99/100 ∧
    state_fidelity solution4 classical4 < state_fidelity solution1 classical1 := by
  refine ⟨by norm_num [probability4], by norm_num [probability4], ?_, ?_, ?_⟩ <;>
    norm_num [state_fidelity, innerQC, sumSqVec, solution4, classical4,
      solution1, classical1, QC.normSq]

theorem log2Fuel_pow (n : ℕ) : ∀ fuel : ℕ, n ≤ fuel → log2Fuel fuel (2 ^ n) = n := by
  induction n with
  | zero =>
      intro fuel _
      cases fuel with
      | zero => rfl
      | succ f => simp [log2Fuel]
  | succ k ih =>
      intro fuel hf
      cases fuel with
      | zero => omega
      | succ f =>
          have h2 : ¬ (2 ^ (k + 1) ≤ 1) := by
            have := Nat.one_lt_two_pow_iff.mpr (Nat.succ_ne_zero k)
            omega
          have hdiv : 2 ^ (k + 1) / 2 = 2 ^ k := by
            rw [pow_succ]
            exact Nat.mul_div_cancel _ (by norm_num)
          simp only [log2Fuel, h2, if_false, hdiv]
          rw [ih f (Nat.succ_le_succ_iff.mp hf)]

theorem nlog2_pow (n : ℕ) : nlog2 (2 ^ n) = n :=
  log2Fuel_pow n (2 ^ n) (Nat.le_of_lt (Nat.lt_two_pow n))

theorem isPow2_pow (n : ℕ) : isPow2 (2 ^ n) = true := by
  simp [isPow2, nlog2_pow]

theorem massAnc1_nonneg (n a : ℕ) (v : St n a) : 0 ≤ massAnc1 n a v := by
  refine Finset.sum_nonneg fun e _ => Finset.sum_nonneg fun m _ => ?_
  exact QC.normSq_nonneg _

theorem massAnc1_le_massAll (n a : ℕ) (v : St n a) : massAnc1 n a v ≤ massAll n a v := by
  refine Finset.sum_le_sum fun e _ => Finset.sum_le_sum fun m _ => ?_
  rw [Fin.sum_univ_two]
  have h0 := QC.normSq_nonneg (v e m 0)
  linarith

theorem div_mem_unit {x y : ℚ} (hx : 0 ≤ x) (hxy : x ≤ y) : 0 ≤ x / y ∧ x / y ≤ 1 := by
  rcases eq_or_lt_of_le (hx.trans hxy) with hy | hy
  · have hx0 : x = 0 := le_antisymm (hxy.trans_eq hy.symm) hx
    simp [hx0]
  · exact ⟨div_nonneg hx (le_of_lt hy), (div_le_one hy).mpr hxy⟩

/-- Claim C1: for every Hermitian matrix `A` of dimension `2^n` (`n ≥ 1`) and
every vector `b` of length `2^n`, a call to `solve(A, b, config)` (within the
configured register ceiling) returns a solution vector of length exactly `2^n`
and a success probability lying in the closed interval `[0, 1]`. -/
theorem solve_returns_shape (A : List (List QC)) (b : List QC) (cfg : HHLConfig)
    (n : ℕ) (hn : A.length = 2 ^ n) (h1 : 1 ≤ n)
    (hsq : ∀ row ∈ A, row.length = A.length)
    (hb : b.length = A.length)
    (hherm : ∀ i j : ℕ, entry A i j = star (entry A j i))
    (hfit : fitsResources A cfg = true) :
    ∃ out, solve A b cfg = Except.ok out ∧ out.solution.length = 2 ^ n ∧
      0 ≤ out.probability ∧ out.probability ≤ 1 := by
  have hpow : isPow2 A.length = true := by rw [hn]; exact isPow2_pow n
  have hble : Nat.ble 2 A.length = true := by
    simp only [Nat.ble_eq, hn]
    calc (2:ℕ) = 2 ^ 1 := by norm_num
    _ ≤ 2 ^ n := Nat.pow_le_pow_right (by norm_num) h1
  have hall : A.all (fun row => row.length == A.length) = true := by
    rw [List.all_eq_true]
    intro row hrow
    simpa using hsq row hrow
  have hd : dimsOk A b = true := by
    simp [dimsOk, hpow, hble, hall, hb]
  have hh : hermCheck A = true := by
    rw [hermCheck, List.all_eq_true]
    intro i _
    rw [List.all_eq_true]
    intro j _
    rw [hherm i j]
    rcases entry A j i with ⟨xre, xim⟩
    simp [hermCheckEntry, absQ, hermTol]
  have hcond : (dimsOk A b && hermCheck A) = true := by simp [hd, hh]
  have hsolve : solve A b cfg = Except.ok
      (simulate (nlog2 A.length) (usedAncillae cfg) (matOf A (nlog2 A.length))
        (vecOf b (nlog2 A.length)) cfg) := by
    simp [solve, hcond, hfit]
  refine ⟨_, hsolve, ?_, ?_, ?_⟩
  · simp only [simulate, List.length_map, List.length_finRange]
    rw [hn, nlog2_pow]
  · exact (div_mem_unit (massAnc1_nonneg _ _ _) (massAnc1_le_massAll _ _ _)).1
  · exact (div_mem_unit (massAnc1_nonneg _ _ _) (massAnc1_le_massAll _ _ _)).2

theorem solve_returns_shape_witness :
    ∃ out, solve matrixD vectorD defaultConfig = Except.ok out ∧
      out.solution.length = 2 ^ 1 ∧ 0 ≤ out.probability ∧ out.probability ≤ 1 := by
  refine solve_returns_shape matrixD vectorD defaultConfig 1 (by decide) (le_refl 1)
    ?_ (by decide) ?_ (by decide)
  · intro row hrow
    simp [matrixD] at hrow
    rcases hrow with h | h <;> subst h <;> simp [matrixD]
  · intro i j
    rcases i with _ | _ | i <;> rcases j with _ | _ | j <;>
      simp [entry, matrixD]

/-- Claim C5: when the scale constant `C` of the reciprocal rotation is not
explicitly configured, solve defaults it to the smallest eigenvalue magnitude
among the decoded eigenvalues; when it is configured, any value in the half-open
interval `(0, 1]` is accepted as an override. -/
theorem scale_resolution (cfg : HHLConfig) :
    (cfg.scale = none →
      hhlScale cfg = autoScale cfg.negative_evals (usedAncillae cfg)) ∧
    ∀ c : ℚ, cfg.scale = some c → 0 < c → c ≤ 1 →
      scaleOk c = true ∧ hhlScale cfg = c := by
  constructor
  · intro h
    simp [hhlScale, h]
  · intro c h h0 h1
    have hok : scaleOk c = true := by simp [scaleOk, h0, h1]
    exact ⟨hok, by simp [hhlScale, h, hok]⟩

theorem scale_resolution_witness :
    (hhlScale defaultConfig =
      autoScale defaultConfig.negative_evals (usedAncillae defaultConfig)) ∧
    (scaleOk (1/2) = true ∧ hhlScale scaledConfig = 1/2) :=
  ⟨(scale_resolution defaultConfig).1 rfl,
   (scale_resolution scaledConfig).2 (1/2) rfl (by norm_num) (by norm_num)⟩

/-- Claim C6: the configuration is passed by value into solve and no global
mutable state persists between runs: in a batch of runs, the result of run `i` is
a function of run `i`'s own input triple alone, and replacing (mutating) the
input of any other run `j ≠ i` leaves run `i`'s result unchanged. -/
theorem config_mutations_isolated (runs : List RunInput) (i j : ℕ) (t : RunInput)
    (hi : i < runs.length) (hij : i ≠ j) :
    (runSequence (runs.set j t)).getD i noResult = (runSequence runs).getD i noResult ∧
    (runSequence runs).getD i noResult =
      solve (runs.getD i noRun).1 (runs.getD i noRun).2.1 (runs.getD i noRun).2.2 := by
  constructor
  · rw [runSequence, runSequence, List.map_set]
    rw [List.getD_eq_getElem?_getD, List.getD_eq_getElem?_getD]
    rw [List.getElem?_set_ne (Ne.symm hij)]
  · rw [runSequence, List.getD_eq_getElem?_getD, List.getElem?_map]
    rw [List.getElem?_eq_getElem hi]
    rw [List.getD_eq_getElem?_getD, List.getElem?_eq_getElem hi]
    rfl

theorem config_mutations_isolated_witness :
    (runSequence ([(matrixD, vectorD, defaultConfig), (matrixD, vectorD, defaultConfig)].set 1
        (matrixD, vectorD, scaledConfig))).getD 0 noResult =
      (runSequence [(matrixD, vectorD, defaultConfig),
        (matrixD, vectorD, defaultConfig)]).getD 0 noResult ∧
    (runSequence [(matrixD, vectorD, defaultConfig),
        (matrixD, vectorD, defaultConfig)]).getD 0 noResult =
      solve ([(matrixD, vectorD, defaultConfig),
          (matrixD, vectorD, defaultConfig)].getD 0 noRun).1
        ([(matrixD, vectorD, defaultConfig),
          (matrixD, vectorD, defaultConfig)].getD 0 noRun).2.1
        ([(matrixD, vectorD, defaultConfig),
          (matrixD, vectorD, defaultConfig)].getD 0 noRun).2.2 :=
  config_mutations_isolated
    [(matrixD, vectorD, defaultConfig), (matrixD, vectorD, defaultConfig)]
    0 1 (matrixD, vectorD, scaledConfig) (by decide) (by decide)

/-- Claim C7: calling solve twice with identical matrix, vector and configuration
yields identical results, and in particular bit-identical solution vectors: the
pipeline is a deterministic function of its inputs. -/
theorem solve_deterministic (A : List (List QC)) (b : List QC) (cfg : HHLConfig) :
    (solveTwice A b cfg).1 = (solveTwice A b cfg).2 ∧
    ∀ out1 out2, (solveTwice A b cfg).1 = Except.ok out1 →
      (solveTwice A b cfg).2 = Except.ok out2 → out1.solution = out2.solution := by
  refine ⟨rfl, ?_⟩
  intro out1 out2 h1 h2
  simp only [solveTwice] at h1 h2
  rw [h1] at h2
  injection h2 with h
  rw [h]

theorem solve_deterministic_witness :
    (solveTwice matrixD vectorD defaultConfig).1 =
      (solveTwice matrixD vectorD defaultConfig).2 ∧
    outD.solution = outD.solution := by
  have hcond : (dimsOk matrixD vectorD && hermCheck matrixD) = true := by
    rw [Bool.and_eq_true]
    refine ⟨by decide, ?_⟩
    norm_num [hermCheck, matrixD, entry, hermCheckEntry, absQ, hermTol, List.range_succ]
  have hfit : fitsResources matrixD defaultConfig = true := by decide
  have h : (solveTwice matrixD vectorD defaultConfig).1 = Except.ok outD := by
    show solve matrixD vectorD defaultConfig = Except.ok outD
    simp [solve, hcond, hfit, outD]
  exact ⟨(solve_deterministic matrixD vectorD defaultConfig).1,
    (solve_deterministic matrixD vectorD defaultConfig).2 outD outD h h⟩

/-- Claim C8: solve checks its input dimensions and the resource ceiling eagerly
at entry, before any simulation work: a matrix whose dimension is not a power of
two, or one that fails the tolerance-bounded Hermitian-symmetry test, makes solve
abort with `InvalidDimension`; once the eager checks pass no error is raised and
every other degraded condition is reported through the output metrics. -/
theorem solve_eager_validation (A : List (List QC)) (b : List QC) (cfg : HHLConfig) :
    ((isPow2 A.length = false ∨ hermCheck A = false) →
      solve A b cfg = Except.error SolveError.InvalidDimension) ∧
    (dimsOk A b = true → hermCheck A = true → fitsResources A cfg = true →
      ∃ out, solve A b cfg = Except.ok out) := by
  constructor
  · intro h
    have hcond : (dimsOk A b && hermCheck A) = false := by
      rcases h with h | h
      · have hd : dimsOk A b = false := by simp [dimsOk, h]
        simp [hd]
      · simp [h]
    simp [solve, hcond]
  · intro hd hh hf
    refine ⟨simulate (nlog2 A.length) (usedAncillae cfg) (matOf A (nlog2 A.length))
      (vecOf b (nlog2 A.length)) cfg, ?_⟩
    simp [solve, hd, hh, hf]

theorem solve_eager_validation_witness :
    solve matrixBad3 vectorD defaultConfig =
      Except.error SolveError.InvalidDimension ∧
    ∃ out, solve matrixD vectorD defaultConfig = Except.ok out := by
  constructor
  · exact (solve_eager_validation matrixBad3 vectorD defaultConfig).1
      (Or.inl (by decide))
  · refine (solve_eager_validation matrixD vectorD defaultConfig).2 (by decide) ?_ (by decide)
    norm_num [hermCheck, matrixD, entry, hermCheckEntry, absQ, hermTol, List.range_succ]

theorem re_sum {ι : Type} (s : Finset ι) (f : ι → QC) :
    (s.sum f).re = s.sum fun i => (f i).re := by
  have h := map_sum reHom f s
  simpa only [show ∀ x : QC, reHom x = x.re from fun x => rfl] using h

theorem sumSqAmp_eq_dot {N : ℕ} (v : Fin N → QC) :
    sumSqAmp v = (Matrix.dotProduct (star v) v).re := by
  rw [sumSqAmp, Matrix.dotProduct, re_sum]
  refine Finset.sum_congr rfl fun i _ => ?_
  rw [Pi.star_apply, QC.star_mul_self]

theorem sumSqAmp_applyU {N : ℕ} (M : Matrix (Fin N) (Fin N) QC) (v : Fin N → QC)
    (hM : M.conjTranspose * M = 1) : sumSqAmp (applyU M v) = sumSqAmp v := by
  rw [sumSqAmp_eq_dot, sumSqAmp_eq_dot, applyU, Matrix.star_mulVec,
    Matrix.dotProduct_mulVec, Matrix.vecMul_vecMul, hM, Matrix.vecMul_one]

theorem runOps_mass {N : ℕ} (ops : List (Matrix (Fin N) (Fin N) QC)) :
    ∀ v : Fin N → QC, (∀ M ∈ ops, M.conjTranspose * M = 1) → sumSqAmp v = 1 →
      sumSqAmp (runOps ops v) = 1 := by
  induction ops with
  | nil => intro v _ hv; simpa [runOps] using hv
  | cons M tl ih =>
      intro v hops hv
      show sumSqAmp (runOps tl (applyU M v)) = 1
      have h1 : sumSqAmp (applyU M v) = 1 := by
        rw [sumSqAmp_applyU M v (hops M (List.mem_cons_self M tl))]; exact hv
      exact ih (applyU M v) (fun M2 hM2 => hops M2 (List.mem_cons_of_mem _ hM2)) h1

theorem sumSqAmp_rescale {N : ℕ} (q : ℚ) (w : Fin N → QC) :
    sumSqAmp (rescaleAmp q w) = q * q * sumSqAmp w := by
  rw [sumSqAmp, sumSqAmp, Finset.mul_sum]
  refine Finset.sum_congr rfl fun i _ => ?_
  show QC.normSq (QC.ofRat q * w i) = q * q * QC.normSq (w i)
  rw [QC.normSq_mul, QC.normSq_ofRat]

/-- Claim C9: throughout every run, the simulator's complex amplitude array of
length `2^(n_main + n_eigs + 1)` keeps the sum of squared magnitudes equal to 1
after every operation — each unitary application preserves the norm — and only
the postselection step renormalizes, onto the measured subspace. -/
theorem amplitude_norm_invariant (n a N : ℕ) (hN : N = 2 ^ (n + a + 1))
    (ops : List (Matrix (Fin N) (Fin N) QC)) (v : Fin N → QC)
    (hops : ∀ M ∈ ops, M.conjTranspose * M = 1) (hv : sumSqAmp v = 1) :
    (∀ p s, ops = p ++ s → sumSqAmp (runOps p v) = 1) ∧
    ∀ (sel : Fin N → Bool) (r : ℚ),
      r * r = sumSqAmp (projSel sel (runOps ops v)) → r ≠ 0 →
      sumSqAmp (rescaleAmp (1 / r) (projSel sel (runOps ops v))) = 1 := by
  constructor
  · intro p s hps
    refine runOps_mass p v (fun M hM => hops M ?_) hv
    rw [hps]
    exact List.mem_append_left s hM
  · intro sel r hr hr0
    rw [sumSqAmp_rescale, ← hr]
    field_simp
theorem amplitude_norm_invariant_witness :
    sumSqAmp (runOps [pauliX] ket0) = 1 ∧
    sumSqAmp (rescaleAmp (1/(1:ℚ))
      (projSel (fun i => i.val == 1) (runOps [pauliX] ket0))) = 1 := by
  have hops : ∀ M ∈ [pauliX], M.conjTranspose * M = 1 := by
    intro M hM
    simp only [List.mem_singleton] at hM
    subst hM
    ext i j
    fin_cases i <;> fin_cases j <;>
      simp [pauliX, Matrix.mul_apply, Matrix.conjTranspose_apply,
        Fin.sum_univ_two, Matrix.one_apply]
  have hv : sumSqAmp ket0 = 1 := by
    simp [sumSqAmp, ket0, Fin.sum_univ_two, QC.normSq]
  have h := amplitude_norm_invariant 0 0 2 (by norm_num) [pauliX] ket0 hops hv
  constructor
  · exact h.1 [pauliX] [] (by simp)
  · refine h.2 (fun i => i.val == 1) 1 ?_ one_ne_zero
    simp [runOps, applyU, Matrix.mulVec, Matrix.dotProduct, pauliX, ket0, projSel,
      sumSqAmp, Fin.sum_univ_two, QC.normSq]

